import Mathlib

/-!
Verification of the psignifit psychometric-function fitting core
(`psychometric.h`, `optimizer.h`, `mpsignifit/getCI.m`) against its
natural-language specification, via a shallow embedding in Lean.

Machine doubles are embedded as `ℚ`; the polymorphic `PsiSigmoid`,
`PsiCore` and `PsiPrior` class hierarchies are embedded as structures of
abstract function fields, since the rest of the system depends only on
those operation contracts.
-/

namespace Psignifit

/-- Abstract sigmoid object: per the spec a monotonic saturating function
`f` from the reals to (0,1) together with its analytic inverse `finv`.
The concrete subclasses live in `sigmoid.h`, outside the visible sources;
only this two-operation contract is used here. -/
structure PsiSigmoid where
  f : ℚ → ℚ
  finv : ℚ → ℚ

/-- Abstract core object: `g (x, prm)` produces the latent score fed to the
sigmoid, `ginv (z, prm)` recovers the stimulus intensity from a latent
score. Concrete subclasses live in `core.h`, outside the visible sources. -/
structure PsiCore where
  g : ℚ → List ℚ → ℚ
  ginv : ℚ → List ℚ → ℚ

/-- Abstract prior object, embedding a `PsiPrior` from `prior.h` (outside
the visible sources). `inSupport` is the support indicator, `dens` the
density on the support, `rand` an abstract sampling map from a random
state to a draw. -/
structure PsiPrior where
  inSupport : ℚ → Bool
  dens : ℚ → ℚ
  rand : ℕ → ℚ

/-- Modelled from the spec: the `pdf` method of the concrete `PsiPrior`
subclasses (in `prior.h`, not among the visible sources).  Per spec §4.3
and §7, a prior density evaluated outside its support returns zero. -/
def PsiPrior.pdf (p : PsiPrior) (x : ℚ) : ℚ :=
  if p.inSupport x then p.dens x else 0

/-- State of a `PsiPsychometric` object: number of alternatives,
guessing rate, the owned core and sigmoid objects, and the prior
assignment per parameter index (`none` embeds an unset prior slot of
the `std::vector<PsiPrior*>`). -/
structure PsiPsychometric where
  nalternatives : ℤ
  guessingrate : ℚ
  core : PsiCore
  sigmoid : PsiSigmoid
  priors : ℕ → Option PsiPrior

/-- Index of the designated lapse-rate entry of the parameter vector:
core parameters come first (two of them for the standard cores), then
the lapse rate. -/
def lapseIndex : ℕ := 2

/-- Lapse rate of a parameter vector: its designated entry. -/
def lapserate (prm : List ℚ) : ℚ := prm.getD lapseIndex 0

/-- Modelled from the spec: the body of `PsiPsychometric::evaluate` lives
in `psychometric.cc`, not among the visible sources.  Per the class
documentation in `psychometric.h` and spec §4.4,
`Psi = guessingrate + (1-guessingrate-lapserate) * Sigmoid ( x | theta )`
with `Sigmoid ( x | theta ) = f (g (x, theta))`. -/
def PsiPsychometric.evaluate (m : PsiPsychometric) (x : ℚ) (prm : List ℚ) : ℚ :=
  m.guessingrate + (1 - m.guessingrate - lapserate prm) * m.sigmoid.f (m.core.g x prm)

/-- Number of free parameters, from `psychometric.h`:
`return (Nalternatives==1 ? 4 : 3 );`. -/
def PsiPsychometric.getNparams (m : PsiPsychometric) : ℕ :=
  if m.nalternatives = 1 then 4 else 3

/-- Threshold, from `psychometric.h`:
`return Core->inv(Sigmoid->inv(cut),prm);`. -/
def PsiPsychometric.getThres (m : PsiPsychometric) (prm : List ℚ) (cut : ℚ) : ℚ :=
  m.core.ginv (m.sigmoid.finv cut) prm

/-- Threshold as the specification words it: the composition of the
sigmoid inverse followed by the core inverse. -/
def threshold_spec (m : PsiPsychometric) (prm : List ℚ) (cut : ℚ) : ℚ :=
  m.core.ginv (m.sigmoid.finv cut) prm

/-- Prior evaluation, from `psychometric.h`:
`return priors[index]->pdf(x);`; the `Option` result embeds the
requirement that the slot be populated. -/
def PsiPsychometric.evalPrior (m : PsiPsychometric) (index : ℕ) (x : ℚ) : Option ℚ :=
  (m.priors index).map (fun p => p.pdf x)

/-- Prior sampling, from `psychometric.h`:
`return priors[index]->rand();`; `s` is the state of the random source. -/
def PsiPsychometric.randPrior (m : PsiPsychometric) (index : ℕ) (s : ℕ) : Option ℚ :=
  (m.priors index).map (fun p => p.rand s)

/-- Prior replacement, declared in `psychometric.h` as
`void setPrior ( int index, PsiPrior* prior );`: stores the new prior at
the given index (the stored pointer is owned by the model from then on). -/
def PsiPsychometric.setPrior (m : PsiPsychometric) (index : ℕ) (p : PsiPrior) :
    PsiPsychometric :=
  { m with priors := Function.update m.priors index (some p) }

/-- State of an `OutlierModel`: the base model plus the index `jout` of the
excluded block. -/
structure OutlierModel extends PsiPsychometric where
  jout : ℕ

/-- Parameter count of the outlier model, from `psychometric.h`:
`return PsiPsychometric::getNparams()+1;`. -/
def OutlierModel.getNparams (m : OutlierModel) : ℕ :=
  m.toPsiPsychometric.getNparams + 1

/-- The libc `drand48` generator, modelled from its documented definition:
a 48-bit linear congruential step `X' = (a X + c) mod 2^48` with
`a = 25214903917`, `c = 11`, whose output `X' / 2^48` is uniformly
distributed on the unit interval. `s` is the current 48-bit state. -/
def drand48 (s : ℕ) : ℚ :=
  (((25214903917 * s + 11) % 2 ^ 48 : ℕ) : ℚ) / 2 ^ 48

/-- Prior sampling of the outlier model, from `psychometric.h`:
`return ( index<PsiPsychometric::getNparams() ? PsiPsychometric::randPrior(index) : drand48() );`. -/
def OutlierModel.randPrior (m : OutlierModel) (index : ℕ) (s : ℕ) : Option ℚ :=
  if index < m.toPsiPsychometric.getNparams then m.toPsiPsychometric.randPrior index s
  else some (drand48 s)

/-- Changing the excluded block, from `psychometric.h`:
`void setexclude ( unsigned int exclude ) { jout = exclude; }`. -/
def OutlierModel.setexclude (m : OutlierModel) (exclude : ℕ) : OutlierModel :=
  { m with jout := exclude }

/-- Identity sigmoid used as a concrete instantiation in examples. -/
def idSigmoid : PsiSigmoid := ⟨fun z => z, fun p => p⟩

/-- Identity core used as a concrete instantiation in examples. -/
def idCore : PsiCore := ⟨fun x _ => x, fun z _ => z⟩

/-- Concrete 2AFC model with identity core and sigmoid and no priors set. -/
def m2afc : PsiPsychometric := ⟨2, 1/2, idCore, idSigmoid, fun _ => none⟩

/-- C1: evaluating the psychometric function at stimulus intensity `x`
with a parameter vector of the model's length returns
`guessingrate + (1 - guessingrate - lapserate) * Sigmoid (Core (x, prm))`,
where the lapse rate is the designated entry of `prm`. -/
theorem evaluate_formula (m : PsiPsychometric) (x : ℚ) (prm : List ℚ)
    (hlen : prm.length = m.getNparams) :
    m.evaluate x prm =
      m.guessingrate + (1 - m.guessingrate - lapserate prm) *
        m.sigmoid.f (m.core.g x prm) := rfl

/-- Concrete instance of `evaluate_formula` on a 2AFC model with identity
core and sigmoid and parameter vector `[0, 1, 1/50]`. -/
theorem evaluate_formula_witness :
    m2afc.evaluate 3 [0, 1, 1/50] =
      m2afc.guessingrate + (1 - m2afc.guessingrate - lapserate [0, 1, 1/50]) *
        m2afc.sigmoid.f (m2afc.core.g 3 [0, 1, 1/50]) :=
  evaluate_formula m2afc 3 [0, 1, 1/50] (by decide)

/-- C2: for every parameter vector and every cut in (0,1), `getThres`
returns exactly the composition of the sigmoid inverse followed by the
core inverse, as the specification words it — a definitional identity. -/
theorem getThres_eq_threshold_spec (m : PsiPsychometric) (prm : List ℚ) (cut : ℚ)
    (h0 : 0 < cut) (h1 : cut < 1) :
    m.getThres prm cut = threshold_spec m prm cut := rfl

/-- Concrete instance of `getThres_eq_threshold_spec` at cut 1/2. -/
theorem getThres_eq_threshold_spec_witness :
    m2afc.getThres [0, 1, 1/50] (1/2) = threshold_spec m2afc [0, 1, 1/50] (1/2) :=
  getThres_eq_threshold_spec m2afc [0, 1, 1/50] (1/2) (by norm_num) (by norm_num)

/-- Concrete yes/no model with identity core and sigmoid and no priors set. -/
def myesno : PsiPsychometric := ⟨1, 0, idCore, idSigmoid, fun _ => none⟩

/-- Concrete outlier model over the 2AFC base, excluding block 0. -/
def om2afc : OutlierModel := ⟨m2afc, 0⟩

/-- C3: a `PsiPsychometric` model has 4 free parameters when the task is
yes/no (`Nalternatives = 1`) and 3 for every multi-alternative task
(`Nalternatives > 1`); an `OutlierModel` has exactly one more than its
base `PsiPsychometric` count. -/
theorem getNparams_cases (m : PsiPsychometric) (om : OutlierModel) :
    (m.nalternatives = 1 → m.getNparams = 4) ∧
    (1 < m.nalternatives → m.getNparams = 3) ∧
    om.getNparams = om.toPsiPsychometric.getNparams + 1 := by
  refine ⟨fun h => ?_, fun h => ?_, rfl⟩
  · simp [PsiPsychometric.getNparams, h]
  · have hne : m.nalternatives ≠ 1 := by omega
    simp [PsiPsychometric.getNparams, hne]

/-- Concrete instance of `getNparams_cases`: the yes/no model has 4
parameters, the 2AFC model has 3, and the outlier model has 3 + 1. -/
theorem getNparams_cases_witness :
    myesno.getNparams = 4 ∧ m2afc.getNparams = 3 ∧
      om2afc.getNparams = om2afc.toPsiPsychometric.getNparams + 1 :=
  ⟨(getNparams_cases myesno om2afc).1 rfl,
   (getNparams_cases m2afc om2afc).2.1 (by decide),
   (getNparams_cases m2afc om2afc).2.2⟩

/-- C7: when no prior is assigned at the appended response-probability
index of an `OutlierModel` (any index at or beyond the base parameter
count), `randPrior` there returns the `drand48` draw, the uniform sample
on the unit interval — in particular the draw lies in [0,1) — while for
every index below the base count it delegates to the base model's prior
sampling. -/
theorem outlier_randPrior_cases (m : OutlierModel) (index s : ℕ) :
    (m.toPsiPsychometric.priors index = none →
      m.toPsiPsychometric.getNparams ≤ index →
        m.randPrior index s = some (drand48 s) ∧ 0 ≤ drand48 s ∧ drand48 s < 1) ∧
    (index < m.toPsiPsychometric.getNparams →
      m.randPrior index s = m.toPsiPsychometric.randPrior index s) := by
  constructor
  · intro _ hge
    refine ⟨?_, ?_, ?_⟩
    · simp [OutlierModel.randPrior, Nat.not_lt.mpr hge]
    · unfold drand48
      positivity
    · unfold drand48
      rw [div_lt_one (by positivity)]
      exact_mod_cast Nat.mod_lt _ (by positivity)
  · intro hlt
    simp [OutlierModel.randPrior, hlt]

/-- Concrete instance of `outlier_randPrior_cases` at the appended index 3
of the 2AFC outlier model (base count 3) and at base index 0, with random
state 0. -/
theorem outlier_randPrior_cases_witness :
    (om2afc.randPrior 3 0 = some (drand48 0) ∧ 0 ≤ drand48 0 ∧ drand48 0 < 1) ∧
      om2afc.randPrior 0 0 = om2afc.toPsiPsychometric.randPrior 0 0 :=
  ⟨(outlier_randPrior_cases om2afc 3 0).1 rfl (by decide),
   (outlier_randPrior_cases om2afc 0 0).2 (by decide)⟩

/-- Concrete positive-support prior with constant density 1 on (0, ∞). -/
def positivePrior : PsiPrior := ⟨fun x => decide (0 < x), fun _ => 1, fun _ => 1⟩

/-- Concrete 2AFC model carrying `positivePrior` at every index. -/
def m2afcWithPrior : PsiPsychometric := ⟨2, 1/2, idCore, idSigmoid, fun _ => some positivePrior⟩

/-- C8: for every parameter index with an assigned prior and every point
outside that prior's support, `evalPrior` returns exactly zero, and every
density it returns at such a point is nonnegative — the evaluation is
defined (some value is returned) at every such point. -/
theorem evalPrior_outside_support (m : PsiPsychometric) (index : ℕ) (x : ℚ)
    (p : PsiPrior) (hp : m.priors index = some p) (hx : p.inSupport x = false) :
    m.evalPrior index x = some 0 ∧
      ∀ q : ℚ, m.evalPrior index x = some q → 0 ≤ q := by
  have h : m.evalPrior index x = some 0 := by
    simp [PsiPsychometric.evalPrior, hp, PsiPrior.pdf, hx]
  refine ⟨h, fun q hq => ?_⟩
  rw [h] at hq
  simp only [Option.some.injEq] at hq
  exact le_of_eq hq

/-- Concrete instance of `evalPrior_outside_support`: the positive-only
prior evaluated at -1 yields density zero. -/
theorem evalPrior_outside_support_witness :
    m2afcWithPrior.evalPrior 0 (-1) = some 0 ∧
      ∀ q : ℚ, m2afcWithPrior.evalPrior 0 (-1) = some q → 0 ≤ q :=
  evalPrior_outside_support m2afcWithPrior 0 (-1) positivePrior rfl (by decide)

/-- Public operations of the model classes in `psychometric.h`
(`PsiPsychometric` together with its `OutlierModel` specialization).
Only the arguments that can influence the object state are carried:
`setPrior` takes the index and the new prior, `setexclude` the new
excluded-block index.  All remaining operations are declared `const` in
the header (or, for `getCore`/`getSigmoid`, merely return a pointer to
const), so they cannot modify the object. -/
inductive ModelOp where
  | evaluate
  | negllikeli
  | neglpost
  | leastfavourable
  | deviance
  | ddnegllikeli
  | dnegllikeli
  | getCore
  | getSigmoid
  | setPrior (index : ℕ) (p : PsiPrior)
  | evalPrior
  | randPrior
  | getNalternatives
  | getNparams
  | getStart
  | getThres
  | getDevianceResiduals
  | getRpd
  | getRkd
  | dllikeli
  | dlposteri
  | setexclude (exclude : ℕ)

/-- Effect of each public operation on the observable model state.
`setPrior` stores the new prior at its index (body in `psychometric.cc`,
modelled from the spec's "prior replacement via explicit setter");
`setexclude` overwrites `jout` as its inline body does; every `const`
operation leaves the state unchanged, which is what `const` member
semantics guarantee. -/
def ModelOp.apply : ModelOp → OutlierModel → OutlierModel
  | .setPrior index p, m =>
      ⟨m.toPsiPsychometric.setPrior index p, m.jout⟩
  | .setexclude exclude, m => m.setexclude exclude
  | _, m => m

/-- C9 counterexample: `setexclude` is a public operation other than
`setPrior`, yet it changes the observable state — applied with argument 1
to the concrete outlier model whose excluded block is 0, it yields a
different model. -/
theorem setexclude_mutates :
    (ModelOp.setexclude 1).apply om2afc ≠ om2afc ∧
      ∀ (index : ℕ) (p : PsiPrior), ModelOp.setexclude 1 ≠ ModelOp.setPrior index p := by
  constructor
  · intro h
    have hj := congrArg OutlierModel.jout h
    simp [ModelOp.apply, OutlierModel.setexclude, om2afc] at hj
  · intro index p h
    exact ModelOp.noConfusion h

/-- C9 (amended): every model is immutable once constructed except for
prior replacement via `setPrior` and, on the outlier specialization,
replacement of the excluded-block index via `setexclude`: every other
public operation leaves the observable state unchanged. -/
theorem const_ops_preserve_state (op : ModelOp) (m : OutlierModel)
    (hsp : ∀ (index : ℕ) (p : PsiPrior), op ≠ ModelOp.setPrior index p)
    (hse : ∀ exclude : ℕ, op ≠ ModelOp.setexclude exclude) :
    op.apply m = m := by
  cases op with
  | setPrior index p => exact absurd rfl (hsp index p)
  | setexclude exclude => exact absurd rfl (hse exclude)
  | evaluate => rfl
  | negllikeli => rfl
  | neglpost => rfl
  | leastfavourable => rfl
  | deviance => rfl
  | ddnegllikeli => rfl
  | dnegllikeli => rfl
  | getCore => rfl
  | getSigmoid => rfl
  | evalPrior => rfl
  | randPrior => rfl
  | getNalternatives => rfl
  | getNparams => rfl
  | getStart => rfl
  | getThres => rfl
  | getDevianceResiduals => rfl
  | getRpd => rfl
  | getRkd => rfl
  | dllikeli => rfl
  | dlposteri => rfl

/-- Concrete instance of `const_ops_preserve_state`: `getThres` leaves the
concrete outlier model unchanged. -/
theorem const_ops_preserve_state_witness :
    ModelOp.getThres.apply om2afc = om2afc :=
  const_ops_preserve_state ModelOp.getThres om2afc
    (fun index p h => ModelOp.noConfusion h)
    (fun exclude h => ModelOp.noConfusion h)

/-- IEEE-style extended value: a finite double (embedded as ℚ), positive
infinity, negative infinity, or NaN.  Used as the codomain of the
log-likelihood so that non-finite outcomes are observable. -/
inductive NVal where
  | fin (q : ℚ)
  | pinf
  | ninf
  | nan
deriving DecidableEq

/-- Addition on extended values, following IEEE double semantics:
NaN propagates, opposite infinities give NaN, an infinity absorbs any
finite value. -/
def NVal.add : NVal → NVal → NVal
  | .nan, _ => .nan
  | _, .nan => .nan
  | .pinf, .ninf => .nan
  | .ninf, .pinf => .nan
  | .pinf, _ => .pinf
  | _, .pinf => .pinf
  | .ninf, _ => .ninf
  | _, .ninf => .ninf
  | .fin a, .fin b => .fin (a + b)

/-- Negation on extended values. -/
def NVal.neg : NVal → NVal
  | .fin a => .fin (-a)
  | .pinf => .ninf
  | .ninf => .pinf
  | .nan => .nan

/-- Multiplication of an extended value by a natural count, following
IEEE double semantics: `0 * ±∞ = NaN`, a positive count preserves the
infinity, NaN propagates. -/
def NVal.natMul (k : ℕ) : NVal → NVal
  | .fin a => .fin (k * a)
  | .pinf => if k = 0 then .nan else .pinf
  | .ninf => if k = 0 then .nan else .ninf
  | .nan => .nan

/-- Natural logarithm on extended values: `log 0 = -∞`, the logarithm of a
negative number is NaN, and on positive rationals the double logarithm is
abstracted by a map `L`. -/
def nlog (L : ℚ → ℚ) (q : ℚ) : NVal :=
  if q < 0 then .nan else if q = 0 then .ninf else .fin (L q)

/-- One data block: stimulus intensity, number of correct/positive
responses `k`, number of trials `n` (`data.h` is not among the visible
sources; this is the triple the spec's data model describes). -/
structure PsiBlock where
  x : ℚ
  k : ℕ
  n : ℕ

/-- Modelled from the spec: the per-block term of
`PsiPsychometric::negllikeli` (body in `psychometric.cc`, not among the
visible sources).  The block contributes `-(k·log Ψ + (n-k)·log(1-Ψ))`;
per spec §4.4 a `log 0` contribution is taken as defined (and dropped)
only when the corresponding observed count is the degenerate value, and
per §4.7 a boundary Ψ against a nonzero opposite count is mapped to a
very large finite penalty `pen` instead of a true infinity. -/
def nllTerm (L : ℚ → ℚ) (pen : ℚ) (k n : ℕ) (ψ : ℚ) : NVal :=
  if (ψ = 0 ∧ 0 < k) ∨ (ψ = 1 ∧ k < n) then .fin pen
  else
    NVal.neg
      (NVal.add
        (if k = 0 then .fin 0 else NVal.natMul k (nlog L ψ))
        (if k = n then .fin 0 else NVal.natMul (n - k) (nlog L (1 - ψ))))

/-- Modelled from the spec: `PsiPsychometric::negllikeli` (body in
`psychometric.cc`, not among the visible sources) — the negative log of
the product binomial likelihood across blocks, each block's success
probability being the model evaluated at the block's intensity. -/
def PsiPsychometric.negllikeli (L : ℚ → ℚ) (pen : ℚ) (m : PsiPsychometric)
    (data : List PsiBlock) (prm : List ℚ) : NVal :=
  (data.map (fun b => nllTerm L pen b.k b.n (m.evaluate b.x prm))).foldr NVal.add (.fin 0)

/-- Sum of two finite extended values is finite. -/
theorem NVal.add_fin (a b : ℚ) : NVal.add (.fin a) (.fin b) = .fin (a + b) := rfl

/-- The per-block negative log-likelihood term is finite whenever the
block satisfies the data invariant `k ≤ n` and the block's success
probability lies in [0,1]. -/
theorem nllTerm_fin (L : ℚ → ℚ) (pen : ℚ) (k n : ℕ) (ψ : ℚ)
    (hkn : k ≤ n) (h0 : 0 ≤ ψ) (h1 : ψ ≤ 1) :
    ∃ q : ℚ, nllTerm L pen k n ψ = .fin q := by
  unfold nllTerm
  split
  · exact ⟨pen, rfl⟩
  · rename_i hbd
    push_neg at hbd
    obtain ⟨hb0, hb1⟩ := hbd
    have hA : ∃ a : ℚ,
        (if k = 0 then NVal.fin 0 else NVal.natMul k (nlog L ψ)) = .fin a := by
      by_cases hk : k = 0
      · exact ⟨0, by rw [if_pos hk]⟩
      · have hψpos : 0 < ψ := by
          rcases eq_or_lt_of_le h0 with hz | hp
          · exact absurd (hb0 hz.symm) (by omega)
          · exact hp
        refine ⟨k * L ψ, ?_⟩
        rw [if_neg hk, nlog, if_neg (by intro h; linarith), if_neg (ne_of_gt hψpos)]
        rfl
    have hB : ∃ b : ℚ,
        (if k = n then NVal.fin 0 else NVal.natMul (n - k) (nlog L (1 - ψ))) = .fin b := by
      by_cases hk : k = n
      · exact ⟨0, by rw [if_pos hk]⟩
      · have hψlt : ψ < 1 := by
          rcases eq_or_lt_of_le h1 with ho | hl
          · exact absurd (hb1 ho) (by omega)
          · exact hl
        refine ⟨((n - k : ℕ) : ℚ) * L (1 - ψ), ?_⟩
        rw [if_neg hk, nlog, if_neg (by intro h; linarith),
          if_neg (by intro h; exact absurd (by linarith : ψ = 1) (ne_of_lt hψlt))]
        rfl
    obtain ⟨a, ha⟩ := hA
    obtain ⟨b, hb⟩ := hB
    rw [ha, hb]
    exact ⟨-(a + b), rfl⟩

/-- C6: on all-or-nothing data (every block's response count is 0 or its
trial count), with parameters for which the model evaluates into [0,1] at
every block, the negative log-likelihood is a finite value — never NaN
and never an infinity — because boundary probabilities against nonzero
opposite counts are mapped to the large finite penalty. -/
theorem negllikeli_finite (L : ℚ → ℚ) (pen : ℚ) (m : PsiPsychometric)
    (data : List PsiBlock) (prm : List ℚ)
    (hall : ∀ b ∈ data, b.k = 0 ∨ b.k = b.n)
    (hval : ∀ b ∈ data, 0 ≤ m.evaluate b.x prm ∧ m.evaluate b.x prm ≤ 1) :
    ∃ q : ℚ, PsiPsychometric.negllikeli L pen m data prm = .fin q := by
  unfold PsiPsychometric.negllikeli
  induction data with
  | nil => exact ⟨0, rfl⟩
  | cons b t ih =>
    obtain ⟨qt, hqt⟩ := ih (fun c hc => hall c (List.mem_cons_of_mem b hc))
      (fun c hc => hval c (List.mem_cons_of_mem b hc))
    have hbkn : b.k ≤ b.n := by
      rcases hall b (List.mem_cons_self b t) with h | h <;> omega
    obtain ⟨qb, hqb⟩ := nllTerm_fin L pen b.k b.n (m.evaluate b.x prm) hbkn
      (hval b (List.mem_cons_self b t)).1 (hval b (List.mem_cons_self b t)).2
    refine ⟨qb + qt, ?_⟩
    simp only [List.map_cons, List.foldr_cons, hqb, hqt, NVal.add_fin]

/-- Concrete instance of `negllikeli_finite` on the 2AFC model with the
all-or-nothing data set `[(0, 0 of 5), (1, 5 of 5)]` and parameters
`[0, 1, 0]`, for which the identity-composed model evaluates to 1/2 at
intensity 0 and to 1 at intensity 1, both inside [0,1]. -/
theorem negllikeli_finite_witness :
    ∃ q : ℚ, PsiPsychometric.negllikeli (fun x => x) 1000000 m2afc
      [⟨0, 0, 5⟩, ⟨1, 5, 5⟩] [0, 1, 0] = .fin q :=
  negllikeli_finite (fun x => x) 1000000 m2afc [⟨0, 0, 5⟩, ⟨1, 5, 5⟩] [0, 1, 0]
    (by intro b hb; fin_cases hb <;> simp)
    (by
      intro b hb
      fin_cases hb <;> constructor <;>
        norm_num [m2afc, idSigmoid, idCore, PsiPsychometric.evaluate,
          lapserate, lapseIndex])

/-- Componentwise sum of two parameter vectors. -/
def vadd (a b : List ℚ) : List ℚ := List.zipWith (· + ·) a b

/-- Componentwise difference of two parameter vectors. -/
def vsub (a b : List ℚ) : List ℚ := List.zipWith (· - ·) a b

/-- Scalar multiple of a parameter vector. -/
def smul (c : ℚ) (a : List ℚ) : List ℚ := a.map (fun q => c * q)

/-- Mean of a nonempty collection of parameter vectors. -/
def vmean : List (List ℚ) → List ℚ
  | [] => []
  | v :: t => smul (1 / (t.length + 1 : ℚ)) (t.foldl vadd v)

/-- Index of a maximal entry of a list of objective values (the worst
simplex node). -/
def idxOfMax : List ℚ → ℕ
  | [] => 0
  | [_] => 0
  | x :: y :: t =>
    if x < (y :: t).getD (idxOfMax (y :: t)) 0 then idxOfMax (y :: t) + 1 else 0

/-- Index of a minimal entry of a list of objective values (the best
simplex node). -/
def idxOfMin : List ℚ → ℕ
  | [] => 0
  | [_] => 0
  | x :: y :: t =>
    if (y :: t).getD (idxOfMin (y :: t)) 0 < x then idxOfMin (y :: t) + 1 else 0

/-- The argmax index is in bounds for a nonempty list. -/
theorem idxOfMax_lt : ∀ l : List ℚ, l ≠ [] → idxOfMax l < l.length := by
  intro l
  induction l with
  | nil => simp
  | cons x t ih =>
    cases t with
    | nil => simp [idxOfMax]
    | cons y s =>
      intro _
      simp only [idxOfMax]
      split
      · have := ih (by simp)
        simpa using Nat.succ_lt_succ this
      · simp

/-- Every entry is bounded by the entry at the argmax index. -/
theorem getD_le_max : ∀ (l : List ℚ) (i : ℕ), i < l.length →
    l.getD i 0 ≤ l.getD (idxOfMax l) 0 := by
  intro l
  induction l with
  | nil => simp
  | cons x t ih =>
    intro i hi
    cases t with
    | nil =>
      simp only [List.length_cons, List.length_nil] at hi
      have h0 : i = 0 := by omega
      subst h0
      simp [idxOfMax]
    | cons y s =>
      simp only [idxOfMax]
      split
      · rename_i hlt
        cases i with
        | zero => simpa using le_of_lt hlt
        | succ j =>
          simpa using ih j (by simpa using hi)
      · rename_i hge
        push_neg at hge
        cases i with
        | zero => simp
        | succ j =>
          simp only [List.getD_cons_succ, List.getD_cons_zero]
          exact le_trans (ih j (by simpa using hi)) hge

/-- The argmin index is in bounds for a nonempty list. -/
theorem idxOfMin_lt : ∀ l : List ℚ, l ≠ [] → idxOfMin l < l.length := by
  intro l
  induction l with
  | nil => simp
  | cons x t ih =>
    cases t with
    | nil => simp [idxOfMin]
    | cons y s =>
      intro _
      simp only [idxOfMin]
      split
      · have := ih (by simp)
        simpa using Nat.succ_lt_succ this
      · simp

/-- The entry at the argmin index bounds every entry from below. -/
theorem min_le_getD : ∀ (l : List ℚ) (i : ℕ), i < l.length →
    l.getD (idxOfMin l) 0 ≤ l.getD i 0 := by
  intro l
  induction l with
  | nil => simp
  | cons x t ih =>
    intro i hi
    cases t with
    | nil =>
      simp only [List.length_cons, List.length_nil] at hi
      have h0 : i = 0 := by omega
      subst h0
      simp [idxOfMin]
    | cons y s =>
      simp only [idxOfMin]
      split
      · rename_i hlt
        cases i with
        | zero => simpa using le_of_lt hlt
        | succ j =>
          simpa using ih j (by simpa using hi)
      · rename_i hge
        push_neg at hge
        cases i with
        | zero => simp
        | succ j =>
          simp only [List.getD_cons_succ, List.getD_cons_zero]
          exact le_trans hge (ih j (by simpa using hi))

/-- When a list has at least two entries, its minimum value is attained at
some index different from the argmax index. -/
theorem exists_min_ne_max (l : List ℚ) (hl : 2 ≤ l.length) :
    ∃ j : ℕ, j < l.length ∧ j ≠ idxOfMax l ∧ l.getD j 0 = l.getD (idxOfMin l) 0 := by
  by_cases h : idxOfMin l = idxOfMax l
  · refine ⟨if idxOfMax l = 0 then 1 else 0, ?_, ?_, ?_⟩
    · split <;> omega
    · split <;> omega
    · have hne : l ≠ [] := by
        intro hnil
        rw [hnil] at hl
        simp at hl
      have hj : (if idxOfMax l = 0 then 1 else 0) < l.length := by split <;> omega
      exact le_antisymm
        (h ▸ getD_le_max l _ hj)
        (min_le_getD l _ hj)
  · exact ⟨idxOfMin l, idxOfMin_lt l (by intro hnil; rw [hnil] at hl; simp at hl), h,
      rfl⟩

/-- In-bounds `getD` through a `map`, with arbitrary defaults. -/
theorem getD_map_lt {α β : Type} (f : α → β) (l : List α) (i : ℕ) (d : α) (e : β)
    (h : i < l.length) : (l.map f).getD i e = f (l.getD i d) := by
  rw [List.getD_eq_getElem?_getD, List.getD_eq_getElem?_getD, List.getElem?_map,
    List.getElem?_eq_getElem h]
  simp

/-- Reading a different index through `set` leaves the entry unchanged. -/
theorem getD_set_ne {α : Type} (l : List α) (i j : ℕ) (a d : α) (h : i ≠ j) :
    (l.set i a).getD j d = l.getD j d := by
  rw [List.getD_eq_getElem?_getD, List.getD_eq_getElem?_getD, List.getElem?_set_ne h]

/-- Reading the written index through `set` returns the written value. -/
theorem getD_set_self {α : Type} (l : List α) (i : ℕ) (a d : α) (h : i < l.length) :
    (l.set i a).getD i d = a := by
  rw [List.getD_eq_getElem?_getD, List.getElem?_set_self h]
  rfl

/-- Halving the componentwise doubling of a vector gives the vector back. -/
theorem smul_half_vadd_self (b : List ℚ) : smul (1/2) (vadd b b) = b := by
  induction b with
  | nil => rfl
  | cons x t ih =>
    simp only [vadd, smul, List.zipWith_cons_cons, List.map_cons] at *
    rw [ih]
    congr 1
    ring

/-- Index of the worst (highest-objective) simplex node. -/
def worstIdx (obj : List ℚ → ℚ) (nodes : List (List ℚ)) : ℕ :=
  idxOfMax (nodes.map obj)

/-- Index of the best (lowest-objective) simplex node. -/
def bestIdx (obj : List ℚ → ℚ) (nodes : List (List ℚ)) : ℕ :=
  idxOfMin (nodes.map obj)

/-- Centroid of all simplex nodes except the worst one. -/
def centroidEx (obj : List ℚ → ℚ) (nodes : List (List ℚ)) : List ℚ :=
  vmean (nodes.eraseIdx (worstIdx obj nodes))

/-- Reflection of the worst node through the centroid, with the standard
coefficient α = 1: centroid + (centroid - worst). -/
def reflected (obj : List ℚ → ℚ) (nodes : List (List ℚ)) : List ℚ :=
  vadd (centroidEx obj nodes) (vsub (centroidEx obj nodes) (nodes.getD (worstIdx obj nodes) []))

/-- Expansion of the reflected node, with the standard coefficient γ = 2:
centroid + 2·(reflected - centroid). -/
def expanded (obj : List ℚ → ℚ) (nodes : List (List ℚ)) : List ℚ :=
  vadd (centroidEx obj nodes) (smul 2 (vsub (reflected obj nodes) (centroidEx obj nodes)))

/-- Contraction of the reflected node toward the centroid, with the
standard coefficient β = 1/2. -/
def contracted (obj : List ℚ → ℚ) (nodes : List (List ℚ)) : List ℚ :=
  vadd (centroidEx obj nodes) (smul (1/2) (vsub (reflected obj nodes) (centroidEx obj nodes)))

/-- Objective value at the second-worst node: the highest objective value
among the nodes other than the worst one. -/
def secondWorst (obj : List ℚ → ℚ) (nodes : List (List ℚ)) : ℚ :=
  ((nodes.map obj).eraseIdx (worstIdx obj nodes)).getD
    (idxOfMax ((nodes.map obj).eraseIdx (worstIdx obj nodes))) 0

/-- Shrink step: move every node halfway toward the best node. -/
def shrinkAll (obj : List ℚ → ℚ) (nodes : List (List ℚ)) : List (List ℚ) :=
  nodes.map (fun v => smul (1/2) (vadd v (nodes.getD (bestIdx obj nodes) [])))

/-- Modelled from the spec: one iteration of the Nelder–Mead main loop of
`PsiOptimizer::optimize` (body in `optimizer.cc`, not among the visible
sources), following spec §4.6 with the standard coefficients α=1, γ=2,
β=1/2, shrink 1/2 that §9 prescribes.  The objective `obj` is the model's
negative log posterior treated as a black box; cached node values are
modelled as recomputed, which is extensionally the same as the header's
staleness-flag bookkeeping. -/
def nmStep (obj : List ℚ → ℚ) (nodes : List (List ℚ)) : List (List ℚ) :=
  if obj (reflected obj nodes) < (nodes.map obj).getD (bestIdx obj nodes) 0 then
    nodes.set (worstIdx obj nodes)
      (if obj (expanded obj nodes) < obj (reflected obj nodes)
        then expanded obj nodes else reflected obj nodes)
  else if obj (reflected obj nodes) < secondWorst obj nodes then
    nodes.set (worstIdx obj nodes) (reflected obj nodes)
  else if obj (reflected obj nodes) < (nodes.map obj).getD (worstIdx obj nodes) 0 then
    nodes.set (worstIdx obj nodes) (contracted obj nodes)
  else
    shrinkAll obj nodes

/-- Modelled from the spec: the iteration of the Nelder–Mead main loop up
to the iteration cap `fuel` (reaching the cap returns the current simplex
regardless, per spec §4.6 step 4). -/
def nmLoop (obj : List ℚ → ℚ) : ℕ → List (List ℚ) → List (List ℚ)
  | 0, nodes => nodes
  | fuel + 1, nodes => nmLoop obj fuel (nmStep obj nodes)

/-- Modelled from the spec: `PsiOptimizer::initialize_simplex` (body in
`optimizer.cc`, not among the visible sources), following spec §4.6.  The
starting point is `startingvalue`'s first `n` entries, or the model's
regression-based start `getStart` when no starting value is supplied.
Node `k+1` offsets dimension `k` of the starting point; the offset is the
extra entry `startingvalue[n+k]` when the starting value has more than
`n` entries, and otherwise the default small relative offset, which the
spec leaves unspecified and is therefore abstracted by `δ`. -/
def initialize_simplex (n : ℕ) (getStart : List ℚ) (δ : ℕ → ℚ → ℚ)
    (startingvalue : Option (List ℚ)) : List (List ℚ) :=
  let start : List ℚ :=
    match startingvalue with
    | none => getStart
    | some v => v.take n
  let off : ℕ → ℚ := fun i =>
    match startingvalue with
    | some v =>
        if n < v.length then v.getD (n + i) (δ i (start.getD i 0))
        else δ i (start.getD i 0)
    | none => δ i (start.getD i 0)
  start :: (List.range n).map (fun k => start.set k (start.getD k 0 + off k))

/-- Modelled from the spec: the starting point used by
`PsiOptimizer::optimize` — `startingvalue`'s first `n` entries, or
`model.getStart(data)` when no starting value is supplied. -/
def startOf (n : ℕ) (getStart : List ℚ) (startingvalue : Option (List ℚ)) : List ℚ :=
  match startingvalue with
  | none => getStart
  | some v => v.take n

/-- Modelled from the spec: `PsiOptimizer::optimize` (body in
`optimizer.cc`, not among the visible sources) — build the initial
simplex, run the Nelder–Mead loop until the iteration cap, and return the
parameter vector of the best (lowest-objective) node at termination. -/
def PsiOptimizer.optimize (obj : List ℚ → ℚ) (n : ℕ) (getStart : List ℚ)
    (δ : ℕ → ℚ → ℚ) (startingvalue : Option (List ℚ)) (fuel : ℕ) : List ℚ :=
  (nmLoop obj fuel (initialize_simplex n getStart δ startingvalue)).getD
    (bestIdx obj (nmLoop obj fuel (initialize_simplex n getStart δ startingvalue))) []

/-- Replacing the worst node by anything cannot raise the simplex minimum,
as long as there are at least two nodes. -/
theorem min_set_worst_le (obj : List ℚ → ℚ) (nodes : List (List ℚ)) (v : List ℚ)
    (h2 : 2 ≤ nodes.length) :
    ((nodes.set (worstIdx obj nodes) v).map obj).getD
        (idxOfMin ((nodes.set (worstIdx obj nodes) v).map obj)) 0 ≤
      (nodes.map obj).getD (idxOfMin (nodes.map obj)) 0 := by
  have hlen : (nodes.map obj).length = nodes.length := List.length_map _ _
  obtain ⟨j, hj, hne, hmin⟩ := exists_min_ne_max (nodes.map obj) (by omega)
  have hset : (nodes.set (worstIdx obj nodes) v).map obj =
      (nodes.map obj).set (worstIdx obj nodes) (obj v) := List.map_set
  rw [hset]
  have hjlen : j < ((nodes.map obj).set (worstIdx obj nodes) (obj v)).length := by
    rw [List.length_set]
    exact hj
  calc ((nodes.map obj).set (worstIdx obj nodes) (obj v)).getD
        (idxOfMin ((nodes.map obj).set (worstIdx obj nodes) (obj v))) 0
      ≤ ((nodes.map obj).set (worstIdx obj nodes) (obj v)).getD j 0 :=
        min_le_getD _ j hjlen
    _ = (nodes.map obj).getD j 0 :=
        getD_set_ne _ _ _ _ _ (fun h => hne h.symm)
    _ = (nodes.map obj).getD (idxOfMin (nodes.map obj)) 0 := hmin

/-- Shrinking every node halfway toward the best node cannot raise the
simplex minimum: the best node is a fixed point of the shrink map. -/
theorem min_shrink_le (obj : List ℚ → ℚ) (nodes : List (List ℚ))
    (h1 : 1 ≤ nodes.length) :
    ((shrinkAll obj nodes).map obj).getD
        (idxOfMin ((shrinkAll obj nodes).map obj)) 0 ≤
      (nodes.map obj).getD (idxOfMin (nodes.map obj)) 0 := by
  have hlen : (nodes.map obj).length = nodes.length := List.length_map _ _
  have hne : (nodes.map obj) ≠ [] := by
    intro h
    have := congrArg List.length h
    simp only [List.length_nil] at this
    omega
  have hlo : bestIdx obj nodes < nodes.length := by
    have := idxOfMin_lt (nodes.map obj) hne
    unfold bestIdx
    omega
  have hfix : smul (1/2) (vadd (nodes.getD (bestIdx obj nodes) [])
      (nodes.getD (bestIdx obj nodes) [])) = nodes.getD (bestIdx obj nodes) [] :=
    smul_half_vadd_self _
  have hloin : bestIdx obj nodes < ((shrinkAll obj nodes).map obj).length := by
    unfold shrinkAll
    rw [List.length_map, List.length_map]
    exact hlo
  calc ((shrinkAll obj nodes).map obj).getD
        (idxOfMin ((shrinkAll obj nodes).map obj)) 0
      ≤ ((shrinkAll obj nodes).map obj).getD (bestIdx obj nodes) 0 :=
        min_le_getD _ _ hloin
    _ = obj (nodes.getD (bestIdx obj nodes) []) := by
        unfold shrinkAll
        rw [getD_map_lt obj _ (bestIdx obj nodes) [] 0 (by rw [List.length_map]; exact hlo),
          getD_map_lt _ nodes (bestIdx obj nodes) [] [] hlo, hfix]
    _ = (nodes.map obj).getD (idxOfMin (nodes.map obj)) 0 :=
        (getD_map_lt obj nodes (bestIdx obj nodes) [] 0 hlo).symm

/-- One Nelder–Mead step never raises the simplex minimum objective. -/
theorem nmStep_min_le (obj : List ℚ → ℚ) (nodes : List (List ℚ))
    (h2 : 2 ≤ nodes.length) :
    ((nmStep obj nodes).map obj).getD (idxOfMin ((nmStep obj nodes).map obj)) 0 ≤
      (nodes.map obj).getD (idxOfMin (nodes.map obj)) 0 := by
  unfold nmStep
  split
  · exact min_set_worst_le obj nodes _ h2
  · split
    · exact min_set_worst_le obj nodes _ h2
    · split
      · exact min_set_worst_le obj nodes _ h2
      · exact min_shrink_le obj nodes (by omega)

/-- One Nelder–Mead step preserves the number of simplex nodes. -/
theorem nmStep_length (obj : List ℚ → ℚ) (nodes : List (List ℚ)) :
    (nmStep obj nodes).length = nodes.length := by
  unfold nmStep
  split
  · exact List.length_set nodes _ _
  · split
    · exact List.length_set nodes _ _
    · split
      · exact List.length_set nodes _ _
      · exact List.length_map _ _

/-- The Nelder–Mead loop preserves the number of simplex nodes. -/
theorem nmLoop_length (obj : List ℚ → ℚ) :
    ∀ (fuel : ℕ) (nodes : List (List ℚ)),
      (nmLoop obj fuel nodes).length = nodes.length := by
  intro fuel
  induction fuel with
  | zero => exact fun nodes => rfl
  | succ f ih =>
    intro nodes
    show (nmLoop obj f (nmStep obj nodes)).length = nodes.length
    rw [ih (nmStep obj nodes), nmStep_length]

/-- The whole Nelder–Mead loop never raises the simplex minimum objective. -/
theorem nmLoop_min_le (obj : List ℚ → ℚ) (fuel : ℕ) :
    ∀ nodes : List (List ℚ), 2 ≤ nodes.length →
    ((nmLoop obj fuel nodes).map obj).getD
        (idxOfMin ((nmLoop obj fuel nodes).map obj)) 0 ≤
      (nodes.map obj).getD (idxOfMin (nodes.map obj)) 0 := by
  induction fuel with
  | zero => exact fun nodes _ => le_refl _
  | succ f ih =>
    intro nodes h2
    have hstep := nmStep_min_le obj nodes h2
    have hlen : 2 ≤ (nmStep obj nodes).length := by
      rw [nmStep_length]
      exact h2
    exact le_trans (ih (nmStep obj nodes) hlen) hstep

/-- C4: for every black-box objective (in the program: the model's
negative log posterior over the given data set), every starting
configuration and every iteration budget, the objective at the parameter
vector returned by `PsiOptimizer.optimize` is at most the objective at
the initial starting point — the optimizer never returns a candidate
worse than the one it started from. -/
theorem optimize_le_start (obj : List ℚ → ℚ) (n : ℕ) (getStart : List ℚ)
    (δ : ℕ → ℚ → ℚ) (startingvalue : Option (List ℚ)) (fuel : ℕ)
    (hn : 1 ≤ n) :
    obj (PsiOptimizer.optimize obj n getStart δ startingvalue fuel) ≤
      obj (startOf n getStart startingvalue) := by
  have hlen0 : (initialize_simplex n getStart δ startingvalue).length = n + 1 := by
    unfold initialize_simplex
    simp
  have h2 : 2 ≤ (initialize_simplex n getStart δ startingvalue).length := by omega
  have hflen : (nmLoop obj fuel (initialize_simplex n getStart δ startingvalue)).length
      = n + 1 := by
    rw [nmLoop_length, hlen0]
  have hfne : (nmLoop obj fuel (initialize_simplex n getStart δ startingvalue)).map obj
      ≠ [] := by
    intro h
    have := congrArg List.length h
    rw [List.length_map, hflen] at this
    simp at this
  have hret : obj (PsiOptimizer.optimize obj n getStart δ startingvalue fuel) =
      ((nmLoop obj fuel (initialize_simplex n getStart δ startingvalue)).map obj).getD
        (idxOfMin ((nmLoop obj fuel
          (initialize_simplex n getStart δ startingvalue)).map obj)) 0 := by
    unfold PsiOptimizer.optimize bestIdx
    have hlt : idxOfMin ((nmLoop obj fuel
        (initialize_simplex n getStart δ startingvalue)).map obj) <
        (nmLoop obj fuel (initialize_simplex n getStart δ startingvalue)).length := by
      have := idxOfMin_lt _ hfne
      rw [List.length_map] at this
      exact this
    exact (getD_map_lt obj _ _ [] 0 hlt).symm
  have hstart : (initialize_simplex n getStart δ startingvalue).getD 0 [] =
      startOf n getStart startingvalue := by
    unfold initialize_simplex startOf
    cases startingvalue <;> rfl
  have hstart_le : ((initialize_simplex n getStart δ startingvalue).map obj).getD
      (idxOfMin ((initialize_simplex n getStart δ startingvalue).map obj)) 0 ≤
      obj (startOf n getStart startingvalue) := by
    rw [← hstart, ← getD_map_lt obj _ 0 [] 0 (by omega)]
    exact min_le_getD _ 0 (by rw [List.length_map]; omega)
  calc obj (PsiOptimizer.optimize obj n getStart δ startingvalue fuel)
      = ((nmLoop obj fuel (initialize_simplex n getStart δ startingvalue)).map obj).getD
        (idxOfMin ((nmLoop obj fuel
          (initialize_simplex n getStart δ startingvalue)).map obj)) 0 := hret
    _ ≤ ((initialize_simplex n getStart δ startingvalue).map obj).getD
        (idxOfMin ((initialize_simplex n getStart δ startingvalue).map obj)) 0 :=
        nmLoop_min_le obj fuel _ h2
    _ ≤ obj (startOf n getStart startingvalue) := hstart_le

/-- Concrete instance of `optimize_le_start`: one objective, one parameter,
starting point [3], one iteration. -/
theorem optimize_le_start_witness :
    (fun v : List ℚ => v.getD 0 0) (PsiOptimizer.optimize
        (fun v : List ℚ => v.getD 0 0) 1 [3] (fun _ _ => 1) none 1) ≤
      (fun v : List ℚ => v.getD 0 0) (startOf 1 [3] none) :=
  optimize_le_start (fun v : List ℚ => v.getD 0 0) 1 [3] (fun _ _ => 1) none 1
    (le_refl 1)

/-- In-bounds `getD` does not depend on the default. -/
theorem getD_congr {α : Type} (l : List α) (i : ℕ) (d d2 : α) (h : i < l.length) :
    l.getD i d = l.getD i d2 := by
  rw [List.getD_eq_getElem?_getD, List.getD_eq_getElem?_getD, List.getElem?_eq_getElem h]
  rfl

/-- Matrix of the difference vectors from the first simplex node to each of
the `n` additional nodes, over the first `n` coordinates; the simplex is
non-degenerate exactly when its determinant is nonzero. -/
def simplexDiffMatrix (n : ℕ) (nodes : List (List ℚ)) : Matrix (Fin n) (Fin n) ℚ :=
  Matrix.of fun k j =>
    (nodes.getD (k.val + 1) []).getD j.val 0 - (nodes.getD 0 []).getD j.val 0

/-- C5: behaviour of the simplex initialization.  With a starting value of
`2n` entries (more than `n`), the first node is the starting value's
first `n` entries and node `k+1` is that vector with dimension `k`
displaced by the extra entry at position `n+k`; when all those spreads
are nonzero the resulting simplex is non-degenerate (nonzero difference
determinant).  With exactly `n` entries, node `k+1` displaces dimension
`k` by the default small relative offset `δ`.  With no starting value,
the starting point is the model's `getStart` vector. -/
theorem initialize_simplex_cases (n : ℕ) (gs : List ℚ) (δ : ℕ → ℚ → ℚ) :
    (∀ sv : List ℚ, sv.length = 2 * n → 0 < n →
      (initialize_simplex n gs δ (some sv)).getD 0 [] = sv.take n ∧
      (∀ k, k < n → (initialize_simplex n gs δ (some sv)).getD (k + 1) [] =
        (sv.take n).set k ((sv.take n).getD k 0 + sv.getD (n + k) 0)) ∧
      ((∀ i, i < n → sv.getD (n + i) 0 ≠ 0) →
        (simplexDiffMatrix n (initialize_simplex n gs δ (some sv))).det ≠ 0)) ∧
    (∀ sv : List ℚ, sv.length = n →
      (initialize_simplex n gs δ (some sv)).getD 0 [] = sv ∧
      (∀ k, k < n → (initialize_simplex n gs δ (some sv)).getD (k + 1) [] =
        sv.set k (sv.getD k 0 + δ k (sv.getD k 0)))) ∧
    (initialize_simplex n gs δ none).getD 0 [] = gs := by
  refine ⟨fun sv hsv hn => ?_, fun sv hsv => ?_, by simp [initialize_simplex]⟩
  · have hstart_len : (sv.take n).length = n := by
      rw [List.length_take]
      omega
    have hnode0 : (initialize_simplex n gs δ (some sv)).getD 0 [] = sv.take n := by
      simp [initialize_simplex]
    have hnode : ∀ k, k < n → (initialize_simplex n gs δ (some sv)).getD (k + 1) [] =
        (sv.take n).set k ((sv.take n).getD k 0 + sv.getD (n + k) 0) := by
      intro k hk
      have hrange : (List.range n).getD k 0 = k := by
        rw [List.getD_eq_getElem?_getD, List.getElem?_range hk]
        rfl
      simp only [initialize_simplex, List.getD_cons_succ]
      rw [getD_map_lt _ (List.range n) k 0 [] (by simpa using hk), hrange,
        if_pos (by omega : n < sv.length),
        getD_congr sv (n + k) (δ k ((sv.take n).getD k 0)) 0 (by omega)]
    refine ⟨hnode0, hnode, fun hnz => ?_⟩
    have hM : simplexDiffMatrix n (initialize_simplex n gs δ (some sv)) =
        Matrix.diagonal (fun k : Fin n => sv.getD (n + k.val) 0) := by
      ext k j
      simp only [simplexDiffMatrix, Matrix.of_apply]
      rw [hnode k.val k.isLt, hnode0]
      by_cases hkj : k = j
      · subst hkj
        rw [Matrix.diagonal_apply_eq,
          getD_set_self _ _ _ _ (by rw [hstart_len]; exact k.isLt)]
        ring
      · rw [Matrix.diagonal_apply_ne _ hkj,
          getD_set_ne _ _ _ _ _ (fun h => hkj (Fin.ext h)), sub_self]
    rw [hM, Matrix.det_diagonal]
    exact Finset.prod_ne_zero_iff.mpr (fun a _ => hnz a.val a.isLt)
  · have htake : sv.take n = sv := by
      rw [← hsv]
      exact List.take_length sv
    constructor
    · simp [initialize_simplex, htake]
    · intro k hk
      have hrange : (List.range n).getD k 0 = k := by
        rw [List.getD_eq_getElem?_getD, List.getElem?_range hk]
        rfl
      simp only [initialize_simplex, List.getD_cons_succ]
      rw [getD_map_lt _ (List.range n) k 0 [] (by simpa using hk), hrange,
        if_neg (by omega : ¬ n < sv.length), htake]

/-- Concrete instance of `initialize_simplex_cases` with one parameter:
starting value [0, 7] yields nodes [0] and [7] with nonzero difference
determinant; starting value [5] yields nodes [5] and [5 + δ]; no starting
value starts from the model's start [9]. -/
theorem initialize_simplex_cases_witness :
    ((initialize_simplex 1 [9] (fun _ x => x / 10) (some [0, 7])).getD 0 [] =
        [0, 7].take 1 ∧
      (initialize_simplex 1 [9] (fun _ x => x / 10) (some [0, 7])).getD 1 [] =
        ([0, 7].take 1).set 0 (([0, 7].take 1).getD 0 0 + [0, 7].getD 1 0) ∧
      (simplexDiffMatrix 1
        (initialize_simplex 1 [9] (fun _ x => x / 10) (some [0, 7]))).det ≠ 0) ∧
    ((initialize_simplex 1 [9] (fun _ x => x / 10) (some [5])).getD 0 [] = [5] ∧
      (initialize_simplex 1 [9] (fun _ x => x / 10) (some [5])).getD 1 [] =
        [5].set 0 ([5].getD 0 0 + ([5].getD 0 0) / 10)) ∧
    (initialize_simplex 1 [9] (fun _ x => x / 10) none).getD 0 [] = [9] := by
  have ha := (initialize_simplex_cases 1 [9] (fun _ x => x / 10)).1 [0, 7]
    (by simp) (by omega)
  have hb := (initialize_simplex_cases 1 [9] (fun _ x => x / 10)).2.1 [5] (by simp)
  have hc := (initialize_simplex_cases 1 [9] (fun _ x => x / 10)).2.2
  exact ⟨⟨ha.1, ha.2.1 0 (by omega), ha.2.2 (by
      intro i hi
      have h0 : i = 0 := by omega
      subst h0
      show (7:ℚ) ≠ 0
      norm_num)⟩,
    ⟨hb.1, hb.2 0 (by omega)⟩, hc⟩

/-- Parameter kind requested from `getCI`: the `'threshold'` or `'slope'`
string argument. -/
inductive CIParam where
  | threshold
  | slope
deriving DecidableEq

/-- Kind of inference object: the `inference.call` string, `'bootstrap'`
for `BootstrapInference` and `'bayes'` otherwise. -/
inductive InfCall where
  | bootstrap
  | bayes
deriving DecidableEq

/-- Inference structure consumed by `getCI.m`: the call tag, the per-cut
threshold bias and acceleration constants, and the bootstrap/MCMC sample
columns for thresholds and slopes, indexed by cut. -/
structure Inference where
  call : InfCall
  bias_thres : ℕ → ℚ
  acc_thres : ℕ → ℚ
  mcthres : ℕ → List ℚ
  mcslopes : ℕ → List ℚ

/-- Matlab builtin functions used by `getCI.m`, abstracted: the normal
cdf and inverse cdf, and the percentile extraction `prctile(samples, p)`
for a single percentage point `p`. -/
structure MatlabEnv where
  normcdf : ℚ → ℚ
  norminv : ℚ → ℚ
  prctile : List ℚ → ℚ → ℚ

/-- Bias-corrected-and-accelerated adjustment of one percentile level, from
`getCI.m` line 40:
`normcdf( bias + ( norminv(probs) + bias ) ./ (1-acc*(norminv(probs) + bias )) )`. -/
def bcaProb (env : MatlabEnv) (bias acc pr : ℚ) : ℚ :=
  env.normcdf (bias + (env.norminv pr + bias) / (1 - acc * (env.norminv pr + bias)))

/-- The `getCI` function of `mpsignifit/getCI.m` (with both optional
arguments supplied): build the two-sided percentile levels from the
coverage `p`, apply the BCa correction with the threshold bias and
acceleration at the given cut when `bca` is set and the inference object
is a bootstrap one, then read percentiles of the threshold or slope
sample column at those levels. -/
def getCI (env : MatlabEnv) (inference : Inference) (cut : ℕ) (p : ℚ)
    (param : CIParam) (bca : Bool) : List ℚ :=
  let notin := 1 - p
  let probs0 : List ℚ := [(1/2) * notin, 1 - (1/2) * notin]
  let probs : List ℚ :=
    if bca = true ∧ inference.call = InfCall.bootstrap then
      probs0.map (bcaProb env (inference.bias_thres cut) (inference.acc_thres cut))
    else probs0
  match param with
  | .threshold => probs.map (fun q => env.prctile (inference.mcthres cut) (100 * q))
  | .slope => probs.map (fun q => env.prctile (inference.mcslopes cut) (100 * q))

/-- C10: on a bootstrap inference object with `bca` set, `getCI` corrects
the percentile levels with the threshold bias and acceleration constants
at the given cut whichever parameter is requested: the slope confidence
interval reads the slope samples at exactly the same corrected levels —
built from `bias_thres` and `acc_thres`, not slope-specific constants —
as the threshold confidence interval uses on the threshold samples. -/
theorem getCI_slope_uses_threshold_bca (env : MatlabEnv) (inference : Inference)
    (cut : ℕ) (p : ℚ) (hcall : inference.call = InfCall.bootstrap) :
    getCI env inference cut p CIParam.slope true =
      [env.prctile (inference.mcslopes cut)
        (100 * bcaProb env (inference.bias_thres cut) (inference.acc_thres cut)
          ((1/2) * (1 - p))),
       env.prctile (inference.mcslopes cut)
        (100 * bcaProb env (inference.bias_thres cut) (inference.acc_thres cut)
          (1 - (1/2) * (1 - p)))] ∧
    getCI env inference cut p CIParam.threshold true =
      [env.prctile (inference.mcthres cut)
        (100 * bcaProb env (inference.bias_thres cut) (inference.acc_thres cut)
          ((1/2) * (1 - p))),
       env.prctile (inference.mcthres cut)
        (100 * bcaProb env (inference.bias_thres cut) (inference.acc_thres cut)
          (1 - (1/2) * (1 - p)))] := by
  constructor <;> simp [getCI, hcall]

/-- Concrete instance of `getCI_slope_uses_threshold_bca` with identity
normal-cdf pair, sample-head percentile extraction, and coverage 95/100. -/
theorem getCI_slope_uses_threshold_bca_witness :
    getCI ⟨fun q => q, fun q => q, fun l q => l.getD 0 q⟩
        ⟨InfCall.bootstrap, fun _ => 0, fun _ => 0, fun _ => [], fun _ => []⟩
        1 (95/100) CIParam.slope true =
      [(⟨fun q => q, fun q => q, fun l q => l.getD 0 q⟩ : MatlabEnv).prctile []
        (100 * bcaProb ⟨fun q => q, fun q => q, fun l q => l.getD 0 q⟩ 0 0
          ((1/2) * (1 - 95/100))),
       (⟨fun q => q, fun q => q, fun l q => l.getD 0 q⟩ : MatlabEnv).prctile []
        (100 * bcaProb ⟨fun q => q, fun q => q, fun l q => l.getD 0 q⟩ 0 0
          (1 - (1/2) * (1 - 95/100)))] :=
  (getCI_slope_uses_threshold_bca ⟨fun q => q, fun q => q, fun l q => l.getD 0 q⟩
    ⟨InfCall.bootstrap, fun _ => 0, fun _ => 0, fun _ => [], fun _ => []⟩
    1 (95/100) rfl).1

end Psignifit
